import Mathlib

/-!
# Verification of the `KnowledgeBank` notebooks

This file is a shallow embedding, in Lean 4, of the glue code of the two
Jupyter notebooks in `blog_posts/selection_and_shrinkage_comparison`
(a regression notebook on the prostate data and a classification notebook on
the spam data), together with proofs about that embedding.

Conventions of the embedding:

* pandas `DataFrame`s become a structure with a list of column names and a
  list of rows (each row a list of cells, a cell being a rational number or a
  string);
* numpy vectors become `List ℚ`, numpy elementwise operations become the
  corresponding list operations, and `np.mean` becomes `sum / length` over ℚ;
* the scikit-learn model fits (`LinearRegression().fit(...)`, predictions,
  ...) are *external library calls*: they are abstracted as function
  parameters (e.g. a function `mae` assigning the held-out test error to each
  feature subset), so the theorems hold for every behaviour of the library;
* `itertools.combinations` is embedded as a recursive function producing the
  same lists in the same order;
* pandas `sort_values` is modelled by sorting with respect to the sort key;
  the theorems proved only use the defining property of a comparison sort
  (the result is an ordered permutation of the input), which every
  implementation of `sort_values` satisfies;
* Python exceptions are modelled with `Except`: a fallible library call
  returns `Except ε ℚ` and the loop is run in the `Except` monad, which
  propagates the first raised error exactly as Python does in the absence of
  `try`/`except`.
-/

namespace KnowledgeBank

/-! ## `itertools.combinations`

`combinations l k` embeds Python's `itertools.combinations(l, k)` for a list
`l`: all length-`k` subsequences of `l`, in lexicographic order of positions
(first all combinations containing the head, then those avoiding it). -/

def combinations : List ℕ → ℕ → List (List ℕ)
  | _, 0 => [[]]
  | [], _ + 1 => []
  | x :: xs, k + 1 => ((combinations xs k).map (fun s => x :: s)) ++ combinations xs (k + 1)

/-- The subsets enumerated by the Best Subset Regression cell:
`for k in range(1, p + 1): for subset in itertools.combinations(range(p), k)`
where `p = X_train.shape[1]` is the number of training-feature columns. -/
def enumSubsets (p : ℕ) : List (List ℕ) :=
  (List.range' 1 p).flatMap (fun k => combinations (List.range p) k)

/-! Basic characterisation of `combinations`. -/

theorem mem_combinations {l : List ℕ} {k : ℕ} {s : List ℕ} :
    s ∈ combinations l k ↔ s.Sublist l ∧ s.length = k := by
  induction l generalizing k s with
  | nil =>
    constructor
    · intro h
      cases k with
      | zero =>
        simp only [combinations, List.mem_singleton] at h
        subst h
        exact ⟨List.Sublist.refl _, rfl⟩
      | succ k => simp [combinations] at h
    · rintro ⟨hs, hlen⟩
      rw [List.sublist_nil.mp hs] at hlen ⊢
      cases k with
      | zero => simp [combinations]
      | succ k => simp at hlen
  | cons x xs ih =>
    cases k with
    | zero =>
      constructor
      · intro h
        simp only [combinations, List.mem_singleton] at h
        subst h
        exact ⟨List.nil_sublist _, rfl⟩
      · rintro ⟨hs, hlen⟩
        cases s with
        | nil => simp [combinations]
        | cons y t => simp at hlen
    | succ k =>
      simp only [combinations, List.mem_append, List.mem_map]
      constructor
      · rintro (⟨t, ht, rfl⟩ | h)
        · obtain ⟨hsub, hlen⟩ := ih.mp ht
          exact ⟨hsub.cons₂ x, by simp [hlen]⟩
        · obtain ⟨hsub, hlen⟩ := ih.mp h
          exact ⟨hsub.cons x, hlen⟩
      · rintro ⟨hsub, hlen⟩
        cases hsub with
        | cons _ h => exact Or.inr (ih.mpr ⟨h, hlen⟩)
        | cons₂ _ h =>
          exact Or.inl ⟨_, ih.mpr ⟨h, by simpa using hlen⟩, rfl⟩

theorem length_mem_combinations {l : List ℕ} {k : ℕ} {s : List ℕ}
    (h : s ∈ combinations l k) : s.length = k :=
  (mem_combinations.mp h).2

theorem nodup_combinations {l : List ℕ} (hl : l.Nodup) (k : ℕ) :
    (combinations l k).Nodup := by
  induction l generalizing k with
  | nil => cases k <;> simp [combinations]
  | cons x xs ih =>
    rw [List.nodup_cons] at hl
    cases k with
    | zero => simp [combinations]
    | succ k =>
      refine List.Nodup.append ((ih hl.2 k).map List.cons_injective) (ih hl.2 (k + 1)) ?_
      intro s hs hs'
      obtain ⟨t, _, rfl⟩ := List.mem_map.mp hs
      have hsub := (mem_combinations.mp hs').1
      exact hl.1 (hsub.subset (List.mem_cons_self x t))

theorem length_combinations (l : List ℕ) (k : ℕ) :
    (combinations l k).length = Nat.choose l.length k := by
  induction l generalizing k with
  | nil => cases k <;> simp [combinations]
  | cons x xs ih =>
    cases k with
    | zero => simp [combinations]
    | succ k =>
      simp [combinations, ih, Nat.choose_succ_succ]

theorem mem_enumSubsets {p : ℕ} {s : List ℕ} :
    s ∈ enumSubsets p ↔ s ≠ [] ∧ s.Sublist (List.range p) := by
  constructor
  · intro h
    obtain ⟨k, hk, hs⟩ := List.mem_flatMap.mp h
    obtain ⟨i, hi, rfl⟩ := List.mem_range'.mp hk
    obtain ⟨hsub, hlen⟩ := mem_combinations.mp hs
    refine ⟨?_, hsub⟩
    intro hnil
    subst hnil
    simp at hlen
    omega
  · rintro ⟨hne, hsub⟩
    have h1 : 1 ≤ s.length := by
      cases s with
      | nil => exact absurd rfl hne
      | cons a t => simp
    have h2 : s.length ≤ p := by simpa using hsub.length_le
    refine List.mem_flatMap.mpr ⟨s.length, ?_, mem_combinations.mpr ⟨hsub, rfl⟩⟩
    exact List.mem_range'.mpr ⟨s.length - 1, by omega, by omega⟩

theorem nodup_enumSubsets (p : ℕ) : (enumSubsets p).Nodup := by
  refine List.nodup_flatMap.mpr ⟨fun k _ => nodup_combinations (List.nodup_range p) k, ?_⟩
  refine (List.nodup_range' 1 p).imp ?_
  intro a b hab
  intro s hsa hsb
  exact hab ((length_mem_combinations hsa).symm.trans (length_mem_combinations hsb))

theorem enumSubsets_toFinset_injOn {p : ℕ} {s t : List ℕ}
    (hs : s ∈ enumSubsets p) (ht : t ∈ enumSubsets p)
    (h : s.toFinset = t.toFinset) : s = t := by
  obtain ⟨-, hssub⟩ := mem_enumSubsets.mp hs
  obtain ⟨-, htsub⟩ := mem_enumSubsets.mp ht
  have hsnd : s.Nodup := List.Nodup.sublist hssub (List.nodup_range p)
  have htnd : t.Nodup := List.Nodup.sublist htsub (List.nodup_range p)
  have hperm : s.Perm t := (List.perm_ext_iff_of_nodup hsnd htnd).mpr (fun a => by
    rw [← List.mem_toFinset, h, List.mem_toFinset])
  haveI : IsAntisymm ℕ (· < ·) := ⟨fun a b hab hba => absurd hba (by omega)⟩
  exact List.eq_of_perm_of_sorted hperm
    (List.Pairwise.sublist hssub (List.sorted_lt_range p))
    (List.Pairwise.sublist htsub (List.sorted_lt_range p))

theorem exists_mem_enumSubsets_toFinset_eq {p : ℕ} {S : Finset ℕ} (hne : S.Nonempty)
    (hsub : S ⊆ Finset.range p) : ∃ s ∈ enumSubsets p, s.toFinset = S := by
  refine ⟨S.sort (· ≤ ·), mem_enumSubsets.mpr ⟨?_, ?_⟩, Finset.sort_toFinset _ S⟩
  · intro h
    have hlen : (S.sort (· ≤ ·)).length = S.card := Finset.length_sort _
    rw [h] at hlen
    have := hne.card_pos
    simp at hlen
    omega
  · refine List.sublist_of_subperm_of_sorted (r := (· ≤ ·))
      ((Finset.sort_nodup _ S).subperm ?_) (Finset.sort_sorted _ S)
      ((List.sorted_lt_range p).imp le_of_lt)
    intro x hx
    have := hsub ((Finset.mem_sort (α := ℕ) (· ≤ ·)).mp hx)
    simpa [List.mem_range] using Finset.mem_range.mp this

theorem sum_map_range (f : ℕ → ℕ) (n : ℕ) :
    ((List.range n).map f).sum = ∑ i ∈ Finset.range n, f i := by
  induction n with
  | zero => simp
  | succ n ih =>
    rw [List.range_succ, List.map_append, List.sum_append, Finset.sum_range_succ, ih]
    simp

theorem length_enumSubsets (p : ℕ) : (enumSubsets p).length = 2 ^ p - 1 := by
  have h1 : (enumSubsets p).length = ∑ i ∈ Finset.range p, Nat.choose p (i + 1) := by
    rw [enumSubsets, List.length_flatMap, List.range'_eq_map_range, List.map_map]
    have hfun : (List.length ∘ fun k => combinations (List.range p) k) ∘ (fun x => 1 + x)
        = fun i => Nat.choose p (i + 1) := by
      funext i
      simp [Function.comp, length_combinations, Nat.add_comm]
    rw [hfun, sum_map_range]
  have h3 := Finset.sum_range_succ' (fun k => Nat.choose p k) p
  rw [Nat.sum_range_choose p, Nat.choose_zero_right] at h3
  rw [h1]
  exact Nat.eq_sub_of_add_eq h3.symm

/-! ## The `results` table of the Best Subset Regression cell

```python
results = pd.DataFrame(columns=['num_features', 'features', 'MAE'])
for k in range(1, X_train.shape[1] + 1):
    for subset in itertools.combinations(range(X_train.shape[1]), k):
        subset = list(subset)
        linreg_model = LinearRegression(normalize=True).fit(X_train[:, subset], y_train)
        linreg_prediction = linreg_model.predict(X_test[:, subset])
        linreg_mae = np.mean(np.abs(y_test - linreg_prediction))
        results = results.append(pd.DataFrame([{'num_features': k,
                                                'features': subset,
                                                'MAE': linreg_mae}]))
```

`mae subset` abstracts the external library computation
`np.mean(np.abs(y_test - LinearRegression(normalize=True)
.fit(X_train[:, subset], y_train).predict(X_test[:, subset])))`:
the held-out test error of the model fitted on the columns of `subset`.
The theorems below hold for every such function, hence in particular for the
one the library realises on the prostate data. -/

def results (mae : List ℕ → ℚ) (p : ℕ) : List (ℕ × List ℕ × ℚ) :=
  (List.range' 1 p).flatMap
    (fun k => (combinations (List.range p) k).map (fun subset => (k, subset, mae subset)))

theorem length_results (mae : List ℕ → ℚ) (p : ℕ) :
    (results mae p).length = (enumSubsets p).length := by
  rw [results, enumSubsets, List.length_flatMap, List.length_flatMap]
  congr 1
  apply List.map_congr_left
  intro k _
  simp [Function.comp]

theorem flatMap_congr {α β : Type} {l : List α} {f g : α → List β}
    (h : ∀ a ∈ l, f a = g a) : l.flatMap f = l.flatMap g := by
  induction l with
  | nil => rfl
  | cons x xs ih =>
    simp only [List.flatMap_cons]
    rw [h x (List.mem_cons_self x xs), ih (fun a ha => h a (List.mem_cons_of_mem x ha))]

theorem results_eq_map (mae : List ℕ → ℚ) (p : ℕ) :
    results mae p = (enumSubsets p).map (fun s => (s.length, s, mae s)) := by
  rw [results, enumSubsets, List.map_flatMap]
  refine flatMap_congr ?_
  intro k _
  refine List.map_congr_left ?_
  intro s hs
  rw [length_mem_combinations hs]

theorem mem_results {mae : List ℕ → ℚ} {p : ℕ} {r : ℕ × List ℕ × ℚ} :
    r ∈ results mae p ↔ ∃ s ∈ enumSubsets p, r = (s.length, s, mae s) := by
  rw [results_eq_map]
  simp only [List.mem_map]
  constructor
  · rintro ⟨s, hs, rfl⟩
    exact ⟨s, hs, rfl⟩
  · rintro ⟨s, hs, rfl⟩
    exact ⟨s, hs, rfl⟩

/-! ## `results.sort_values('MAE')` and the selection of the best subset

```python
results = results.sort_values('MAE').reset_index()
best_subset_model = LinearRegression(normalize=True).fit(X_train[:, results['features'][0]], y_train)
print('Best Subset Regression MAE: {}'.format(np.round(results['MAE'][0], 3)))
```

`sort_values('MAE')` is a comparison sort on the `MAE` column; it is modelled
by sorting with respect to the key `r.2.2`.  The theorems below only use that
the result is an ordered permutation of the table, which holds for every
comparison-sort implementation. -/

instance : DecidableRel (fun (a b : ℕ × List ℕ × ℚ) => a.2.2 ≤ b.2.2) :=
  fun a b => inferInstanceAs (Decidable (a.2.2 ≤ b.2.2))

instance : IsTotal (ℕ × List ℕ × ℚ) (fun a b => a.2.2 ≤ b.2.2) :=
  ⟨fun a b => le_total a.2.2 b.2.2⟩

instance : IsTrans (ℕ × List ℕ × ℚ) (fun a b => a.2.2 ≤ b.2.2) :=
  ⟨fun _ _ _ h h' => le_trans h h'⟩

def sortedResults (mae : List ℕ → ℚ) (p : ℕ) : List (ℕ × List ℕ × ℚ) :=
  List.insertionSort (fun a b => a.2.2 ≤ b.2.2) (results mae p)

/-- `results['features'][0]` after the sort and `reset_index`: the feature
subset of the row with the smallest `MAE`, used to fit `best_subset_model`. -/
def bestFeatures (mae : List ℕ → ℚ) (p : ℕ) : List ℕ :=
  (sortedResults mae p).headI.2.1

/-- `results['MAE'][0]` after the sort and `reset_index`: the value printed as
`Best Subset Regression MAE` (before the display rounding `np.round(·, 3)`). -/
def bestMAE (mae : List ℕ → ℚ) (p : ℕ) : ℚ :=
  (sortedResults mae p).headI.2.2

/-! ## The loop in the presence of library exceptions

The Best Subset Regression cell contains no `try`/`except`: a Python
exception raised by any `fit`/`predict` call aborts the whole cell.  This is
embedded by letting the per-subset library computation return
`Except ε ℚ` and running the loop with explicit propagation: the recursion
below is the `for` loop, where a raised error stops the iteration and becomes
the outcome of the whole computation. -/

def resultsRowsE {ε : Type} (mae : List ℕ → Except ε ℚ) :
    List (List ℕ) → Except ε (List (ℕ × List ℕ × ℚ))
  | [] => .ok []
  | s :: rest =>
    match mae s with
    | .error e => .error e
    | .ok m =>
      match resultsRowsE mae rest with
      | .error e => .error e
      | .ok rows => .ok ((s.length, s, m) :: rows)

def resultsE {ε : Type} (mae : List ℕ → Except ε ℚ) (p : ℕ) :
    Except ε (List (ℕ × List ℕ × ℚ)) :=
  resultsRowsE mae (enumSubsets p)

/-- The whole cell under exceptions: build the table, sort it, return the
best subset and the printed MAE; any uncaught library error is the outcome. -/
def bestSubsetE {ε : Type} (mae : List ℕ → Except ε ℚ) (p : ℕ) :
    Except ε (List ℕ × ℚ) :=
  match resultsE mae p with
  | .error e => .error e
  | .ok table =>
    let sorted := List.insertionSort (fun a b => a.2.2 ≤ b.2.2) table
    .ok (sorted.headI.2.1, sorted.headI.2.2)

theorem resultsRowsE_error {ε : Type} (mae : List ℕ → Except ε ℚ) :
    ∀ (l : List (List ℕ)) (s : List ℕ) (e : ε), s ∈ l → mae s = .error e →
      ∃ e', (∃ s' ∈ l, mae s' = .error e') ∧ resultsRowsE mae l = .error e' := by
  intro l
  induction l with
  | nil => intro s e hs _; cases hs
  | cons x xs ih =>
    intro s e hs he
    cases hx : mae x with
    | error ex =>
      exact ⟨ex, ⟨x, List.mem_cons_self x xs, hx⟩, by rw [resultsRowsE, hx]⟩
    | ok m =>
      have hsx : s ∈ xs := by
        rcases List.mem_cons.mp hs with rfl | h
        · rw [hx] at he; cases he
        · exact h
      obtain ⟨e', ⟨s', hs', hfs'⟩, hrows⟩ := ih s e hsx he
      exact ⟨e', ⟨s', List.mem_cons_of_mem x hs', hfs'⟩, by rw [resultsRowsE, hx, hrows]⟩

theorem resultsRowsE_ok {ε : Type} (mae : List ℕ → ℚ) :
    ∀ l : List (List ℕ),
      resultsRowsE (ε := ε) (fun s => .ok (mae s)) l = .ok (l.map (fun s => (s.length, s, mae s))) := by
  intro l
  induction l with
  | nil => rfl
  | cons x xs ih => rw [resultsRowsE, ih]; rfl

/-! ## Reported metrics

Every regression model of the first notebook reports
`np.mean(np.abs(y_test - prediction))` (bound to `linreg_mae`, `ridge_mae`,
`lasso_mae`, `elastic_net_mae`, `LAR_mae`, `pcareg_mae`, `pls_mae`), and every
classifier of the second notebook reports
`accuracy_score(y_test, preds)` (bound to `lda_acc`, `qda_acc`, `rda_acc`,
`logreg_acc`).  Vectors are embedded as `List ℚ` / `List ℕ`; numpy's
elementwise subtraction, elementwise absolute value and mean are `npSub`,
`npAbs` and `npMean`.

The shape of `prediction` matters.  For seven of the eight regression models
(`LinearRegression`, the best-subset fits, `RidgeCV`, `LassoCV`,
`ElasticNetCV`, `LarsCV` and the PCR pipeline) `predict` returns a 1-D array
of length `n`, and the expression is an elementwise mean over `n` entries
(`npSub`).  `PLSRegression.predict`, however, returns an `(n, 1)` column —
which is why that cell alone must flatten `coef_` with
`np.concatenate(..., axis=None)` — so in the PLS cell the subtraction
`y_test - pls_prediction` broadcasts the `(n,)` vector against the `(n, 1)`
column to an `n × n` matrix (`npSubBroadcast`), and `np.mean` averages over
all `n * n` entries. -/

def npSub (a b : List ℚ) : List ℚ := (a.zip b).map (fun t => t.1 - t.2)

def npAbs (a : List ℚ) : List ℚ := a.map (fun q => |q|)

def npMean (a : List ℚ) : ℚ := a.sum / a.length

/-- Broadcast subtraction of an `(n,)` vector `y` and an `(n, 1)` column
`predCol` (represented by the list of its entries), per numpy's broadcasting
rules: the result is the matrix with entry `(i, j)` equal to
`y_j - predCol_i`. -/
def npSubBroadcast (y predCol : List ℚ) : List (List ℚ) :=
  predCol.map (fun p => y.map (fun yj => yj - p))

def npAbsMat (m : List (List ℚ)) : List (List ℚ) := m.map npAbs

/-- `np.mean` of a 2-D array: the sum of all entries over the number of
entries. -/
def npMeanMat (m : List (List ℚ)) : ℚ :=
  (m.map List.sum).sum / ((m.map List.length).sum : ℚ)

/-- `np.mean(np.abs(y_test - prediction))` for a 1-D `prediction` of the same
length as `y_test`: the expression computing the reported regression error of
the seven models whose `predict` returns a 1-D array (all but PLS). -/
def reported_mae (y_test prediction : List ℚ) : ℚ :=
  npMean (npAbs (npSub y_test prediction))

/-- `pls_mae = np.mean(np.abs(y_test - pls_prediction))` in the PLS cell,
where `pls_prediction = pls_model.predict(X_test)` has shape `(n, 1)`
(represented by the list of its `n` entries): the subtraction broadcasts to
an `n × n` matrix and the mean runs over its `n * n` entries. -/
def pls_mae (y_test pls_prediction : List ℚ) : ℚ :=
  npMeanMat (npAbsMat (npSubBroadcast y_test pls_prediction))

/-- `sklearn.metrics.accuracy_score(y_test, preds)`: the library call used by
the second notebook; per its documented semantics it is the mean of the
elementwise match indicator `y_test == preds`. -/
def accuracy_score (y_test preds : List ℕ) : ℚ :=
  npMean ((y_test.zip preds).map (fun t => if t.1 = t.2 then 1 else 0))

/-- Mean of the absolute differences between the test targets and the
predictions, stated as the spec words it, indexwise. -/
def meanAbsDiff (n : ℕ) (y yhat : ℕ → ℚ) : ℚ :=
  (∑ i ∈ Finset.range n, |y i - yhat i|) / n

/-- Fraction of the test observations whose predicted class equals the true
label, stated as the spec words it, indexwise. -/
def fractionCorrect (n : ℕ) (y yhat : ℕ → ℕ) : ℚ :=
  (((Finset.range n).filter (fun i => y i = yhat i)).card : ℚ) / n

theorem npAbs_npSub_sum (y : List ℚ) :
    ∀ pred : List ℚ, y.length = pred.length →
      (npAbs (npSub y pred)).sum
        = ∑ i ∈ Finset.range y.length, |y.getD i 0 - pred.getD i 0| := by
  induction y with
  | nil =>
    intro pred h
    simp [npAbs, npSub]
  | cons a y ih =>
    intro pred h
    cases pred with
    | nil => simp at h
    | cons b pred =>
      simp only [List.length_cons] at h
      simp only [npAbs, npSub, List.zip_cons_cons, List.map_cons, List.sum_cons,
        List.length_cons]
      rw [Finset.sum_range_succ' (fun i => |(a :: y).getD i 0 - (b :: pred).getD i 0|)]
      simp only [List.getD_cons_succ, List.getD_cons_zero]
      rw [← ih pred (by omega)]
      simp [npAbs, npSub]
      ring

theorem match_indicator_sum (y : List ℕ) :
    ∀ pred : List ℕ, y.length = pred.length →
      ((y.zip pred).map (fun t => if t.1 = t.2 then (1 : ℚ) else 0)).sum
        = ∑ i ∈ Finset.range y.length, (if y.getD i 0 = pred.getD i 0 then (1 : ℚ) else 0) := by
  induction y with
  | nil =>
    intro pred h
    simp
  | cons a y ih =>
    intro pred h
    cases pred with
    | nil => simp at h
    | cons b pred =>
      simp only [List.length_cons] at h
      simp only [List.zip_cons_cons, List.map_cons, List.sum_cons, List.length_cons]
      rw [Finset.sum_range_succ'
        (fun i => if (a :: y).getD i 0 = (b :: pred).getD i 0 then (1 : ℚ) else 0)]
      simp only [List.getD_cons_succ, List.getD_cons_zero]
      rw [← ih pred (by omega)]
      ring

theorem length_npAbs_npSub (y pred : List ℚ) (h : y.length = pred.length) :
    (npAbs (npSub y pred)).length = y.length := by
  simp [npAbs, npSub, h]

theorem sum_map_eq_sum_range_getD (f : ℚ → ℚ) :
    ∀ l : List ℚ, (l.map f).sum = ∑ i ∈ Finset.range l.length, f (l.getD i 0) := by
  intro l
  induction l with
  | nil => simp
  | cons a l ih =>
    simp only [List.map_cons, List.sum_cons, List.length_cons]
    rw [Finset.sum_range_succ' (fun i => f ((a :: l).getD i 0))]
    simp only [List.getD_cons_succ, List.getD_cons_zero]
    rw [ih]
    ring

theorem sum_map_const_nat {α : Type} (c : ℕ) :
    ∀ l : List α, (l.map (fun _ => c)).sum = l.length * c := by
  intro l
  induction l with
  | nil => simp
  | cons a l ih =>
    simp only [List.map_cons, List.sum_cons, List.length_cons, ih]
    ring

theorem npAbsMat_npSubBroadcast_sum (y predCol : List ℚ) :
    ((npAbsMat (npSubBroadcast y predCol)).map List.sum).sum
      = ∑ i ∈ Finset.range predCol.length, ∑ j ∈ Finset.range y.length,
          |y.getD j 0 - predCol.getD i 0| := by
  rw [npAbsMat, npSubBroadcast, List.map_map, List.map_map]
  have hrow : ∀ p : ℚ, ((List.sum ∘ npAbs) ∘ fun p => y.map (fun yj => yj - p)) p
      = ∑ j ∈ Finset.range y.length, |y.getD j 0 - p| := by
    intro p
    show (npAbs (y.map (fun yj => yj - p))).sum = _
    rw [npAbs, List.map_map]
    exact sum_map_eq_sum_range_getD (fun yj => |yj - p|) y
  rw [List.map_congr_left (fun p _ => hrow p),
    sum_map_eq_sum_range_getD (fun p => ∑ j ∈ Finset.range y.length, |y.getD j 0 - p|)]

theorem npAbsMat_npSubBroadcast_count (y predCol : List ℚ) :
    ((npAbsMat (npSubBroadcast y predCol)).map List.length).sum
      = predCol.length * y.length := by
  rw [npAbsMat, npSubBroadcast, List.map_map, List.map_map]
  have hrow : ∀ p : ℚ, ((List.length ∘ npAbs) ∘ fun p => y.map (fun yj => yj - p)) p
      = y.length := by
    intro p
    show (npAbs (y.map (fun yj => yj - p))).length = _
    simp [npAbs]
  rw [List.map_congr_left (fun p _ => hrow p), sum_map_const_nat]

/-! ## The cross-validation grids supplied to the library estimators

```python
ridge_cv = RidgeCV(normalize=True, alphas=np.logspace(-10, 1, 400))
lasso_cv = LassoCV(normalize=True, alphas=np.logspace(-10, 1, 400))
elastic_net_cv = ElasticNetCV(normalize=True, alphas=np.logspace(-10, 1, 400),
                              l1_ratio=np.linspace(0, 1, 100))
param_grid = {'pca__n_components': range(1, 9)}   # PCR
param_grid = {'n_components': range(1, 9)}        # PLS
```

`np.linspace(a, b, n)` is embedded directly; `np.logspace(-10, 1, 400)` is
`10.0 ** np.linspace(-10, 1, 400)` elementwise, so it is represented by its
list of exponents `linspace (-10) 1 400` (the penalty grid is
logarithmically spaced from `10 ^ (-10)` to `10 ^ 1` exactly when its
exponents are evenly spaced from `-10` to `1`). -/

def linspace (a b : ℚ) (n : ℕ) : List ℚ :=
  (List.range n).map (fun i : ℕ => a + ((b - a) * i) / ((n : ℚ) - 1))

/-- Exponents of the `alphas` grid `np.logspace(-10, 1, 400)` passed to
`RidgeCV`, `LassoCV` and `ElasticNetCV`. -/
def alphas_exponents : List ℚ := linspace (-10) 1 400

/-- The `l1_ratio` grid `np.linspace(0, 1, 100)` passed to `ElasticNetCV`. -/
def l1_ratio_grid : List ℚ := linspace 0 1 100

/-- The `range(1, 9)` grid over numbers of components used by the
`GridSearchCV` searches for PCR and PLS. -/
def n_components_grid : List ℕ := List.range' 1 8

theorem length_linspace (a b : ℚ) (n : ℕ) : (linspace a b n).length = n := by
  simp [linspace]

theorem linspace_getD (a b : ℚ) (n i : ℕ) (h : i < n) :
    (linspace a b n).getD i 0 = a + ((b - a) * i) / ((n : ℚ) - 1) := by
  rw [linspace, List.getD_eq_getElem?_getD, List.getElem?_map, List.getElem?_range h]
  rfl

/-! ## The prostate data frame and its train/test split

```python
data = pd.read_csv("prostate_data", sep = "\t")
y_train = np.array(data[data.train == "T"]['lpsa'])
y_test = np.array(data[data.train == "F"]['lpsa'])
X_train = np.array(data[data.train == "T"].drop(['lpsa', 'train'], axis=1))
X_test = np.array(data[data.train == "F"].drop(['lpsa', 'train'], axis=1))
```

A pandas frame is a list of column names and a list of rows; a cell is a
rational number or a string (the `train` flag column holds strings). -/

inductive Cell : Type
  | num (q : ℚ)
  | str (s : String)
  deriving DecidableEq, Repr

structure DataFrame : Type where
  cols : List String
  rows : List (List Cell)

/-- Position of column `c` among the frame's columns. -/
def DataFrame.colIdx (d : DataFrame) (c : String) : ℕ := d.cols.indexOf c

/-- The entry of row `r` in column `c`. -/
def DataFrame.cellAt (d : DataFrame) (r : List Cell) (c : String) : Cell :=
  r.getD (d.colIdx c) (Cell.str "")

/-- `data[data.c == v]`: boolean-mask row selection on column `c`. -/
def DataFrame.filterBy (d : DataFrame) (c : String) (v : Cell) : DataFrame :=
  ⟨d.cols, d.rows.filter (fun r => d.cellAt r c == v)⟩

/-- `data.drop(names, axis=1)`: drop every column whose name is in `names`. -/
def DataFrame.dropCols (d : DataFrame) (names : List String) : DataFrame :=
  ⟨d.cols.filter (fun c => !names.contains c),
   d.rows.map (fun r => ((d.cols.zip r).filter (fun pr => !names.contains pr.1)).map Prod.snd)⟩

/-- `data['c']`: column `c` as a list of cells. -/
def DataFrame.col (d : DataFrame) (c : String) : List Cell :=
  d.rows.map (fun r => d.cellAt r c)

namespace Prostate

def y_train (d : DataFrame) : List Cell :=
  (d.filterBy "train" (Cell.str "T")).col "lpsa"

def y_test (d : DataFrame) : List Cell :=
  (d.filterBy "train" (Cell.str "F")).col "lpsa"

def X_train (d : DataFrame) : DataFrame :=
  (d.filterBy "train" (Cell.str "T")).dropCols ["lpsa", "train"]

def X_test (d : DataFrame) : DataFrame :=
  (d.filterBy "train" (Cell.str "F")).dropCols ["lpsa", "train"]

end Prostate

/-- The train/test flag of a row: its entry in the `train` column. -/
def trainFlag (d : DataFrame) (r : List Cell) : Cell := d.cellAt r "train"

/-- Specification-side description of a row's predictor entries: its entries
at exactly the positions whose column name is neither the target `lpsa` nor
the indicator `train`. -/
def predictorEntries (d : DataFrame) (r : List Cell) : List Cell :=
  (List.range d.cols.length).filterMap
    (fun i => if d.cols.getD i "" ≠ "lpsa" ∧ d.cols.getD i "" ≠ "train"
      then some (r.getD i (Cell.str "")) else none)

theorem zip_filter_map_eq_filterMap (names : List String) :
    ∀ (cols : List String) (r : List Cell), r.length = cols.length →
      ((cols.zip r).filter (fun pr => !names.contains pr.1)).map Prod.snd
        = (List.range cols.length).filterMap
            (fun i => if ¬ (names.contains (cols.getD i "") = true)
              then some (r.getD i (Cell.str "")) else none) := by
  intro cols
  induction cols with
  | nil =>
    intro r h
    simp
  | cons c cols ih =>
    intro r h
    cases r with
    | nil => simp at h
    | cons x r =>
      simp only [List.length_cons] at h
      rw [List.zip_cons_cons, List.length_cons, List.range_succ_eq_map,
        List.filterMap_cons, List.filter_cons]
      rw [List.filterMap_map]
      have htail :
          (List.filterMap ((fun i => if ¬ (names.contains ((c :: cols).getD i "") = true)
              then some ((x :: r).getD i (Cell.str "")) else none) ∘ Nat.succ) (List.range cols.length))
            = ((cols.zip r).filter (fun pr => !names.contains pr.1)).map Prod.snd := by
        rw [ih r (by omega)]
        apply List.filterMap_congr
        intro i _
        simp [Function.comp, List.getD_cons_succ]
      rw [htail]
      by_cases hc : c ∈ names
      · simp [hc, List.filter_cons]
      · simp [hc, List.filter_cons]

theorem predictorEntries_eq (d : DataFrame) (r : List Cell)
    (h : r.length = d.cols.length) :
    ((d.cols.zip r).filter
        (fun pr => !(["lpsa", "train"] : List String).contains pr.1)).map Prod.snd
      = predictorEntries d r := by
  rw [zip_filter_map_eq_filterMap ["lpsa", "train"] d.cols r h, predictorEntries]
  apply List.filterMap_congr
  intro i _
  have hiff : (¬ ((["lpsa", "train"] : List String).contains (d.cols.getD i "") = true))
      ↔ (d.cols.getD i "" ≠ "lpsa" ∧ d.cols.getD i "" ≠ "train") := by
    simp [not_or]
  rw [if_congr hiff rfl rfl]

theorem length_filter_or {α : Type} (p q : α → Bool) (l : List α)
    (h : ∀ a ∈ l, ¬(p a = true ∧ q a = true)) :
    (l.filter p).length + (l.filter q).length
      = (l.filter (fun a => p a || q a)).length := by
  induction l with
  | nil => rfl
  | cons x xs ih =>
    have hx := h x (List.mem_cons_self x xs)
    have ih' := ih (fun a ha => h a (List.mem_cons_of_mem x ha))
    simp only [List.filter_cons]
    cases hp : p x <;> cases hq : q x <;> simp_all <;> omega

/-! ## The coefficient dictionary of the Best Subset Regression cell

```python
best_subset_coefs = dict(
    zip(['Intercept'] + data.columns.tolist()[:-1],
        np.round(np.concatenate((best_subset_model.intercept_,
                                 best_subset_model.coef_), axis=None), 3))
)
```

The label list is `'Intercept'` followed by every column name but the last
(only `train` is dropped, so the target name `lpsa` stays in the list).
Python `zip` truncates to the shorter argument; the dictionary is embedded as
the association list of the zipped pairs.  `intercept` and `coefs` abstract
the fitted `best_subset_model.intercept_` and `best_subset_model.coef_` (one
coefficient per column of the fitted subset, in subset order). -/

def coefLabels (cols : List String) : List String := "Intercept" :: cols.dropLast

def best_subset_coefs (cols : List String) (intercept : ℚ) (coefs : List ℚ) :
    List (String × ℚ) :=
  (coefLabels cols).zip (intercept :: coefs)

theorem map_fst_zip_eq_take {α β : Type} :
    ∀ (l : List α) (v : List β), (l.zip v).map Prod.fst = l.take v.length
  | [], _ => by simp
  | _ :: _, [] => by simp
  | a :: l, b :: v => by
    simp only [List.zip_cons_cons, List.map_cons, List.length_cons, List.take_succ_cons]
    rw [map_fst_zip_eq_take l v]

theorem exists_lt_not_mem_of_ne_range {p : ℕ} {S : List ℕ}
    (hS : S.Sublist (List.range p)) (hne : S ≠ List.range S.length) :
    ∃ j, j < S.length ∧ j ∉ S := by
  by_contra hcon
  push_neg at hcon
  apply hne
  have hsub2 : (List.range S.length).Subperm S :=
    (List.nodup_range _).subperm (fun j hj => hcon j (List.mem_range.mp hj))
  have hperm : (List.range S.length).Perm S := hsub2.perm_of_length_le (by simp)
  haveI : IsAntisymm ℕ (· < ·) := ⟨fun a b hab hba => absurd hba (by omega)⟩
  exact List.eq_of_perm_of_sorted hperm.symm
    (List.Pairwise.sublist hS (List.sorted_lt_range p))
    (List.sorted_lt_range S.length)

/-! ## The spam notebook: the fixed-seed split

```python
spam_data = pd.read_csv('spam.txt', header=None)
X_train, X_test, y_train, y_test = train_test_split(spam_data.iloc[:, :-1],
                                                    spam_data.iloc[:, -1],
                                                    test_size=0.2,
                                                    random_state=42)
```

`sklearn.model_selection.train_test_split` shuffles the row indices with a
pseudo-random generator and splits off `ceil(test_size * n)` rows as the test
set.  When `random_state` is given the generator is seeded with it; otherwise
it is seeded from environment entropy.  The index permutation drawn from the
seeded generator is abstracted as the function argument `shuffle`; the
environment's entropy is an explicit argument, so determinism is a statement
about it.  Feature rows and labels are split together (the library applies
one permutation to `X` and `y` alike), so a row of the embedding stands for
an `(X, y)` pair. -/

namespace Spam

def train_test_split {α : Type} (shuffle : ℕ → List ℕ → List ℕ)
    (rows : List α) (test_size : ℚ) (random_state : Option ℕ) (entropy : ℕ) :
    List α × List α :=
  let seed := random_state.getD entropy
  let perm := shuffle seed (List.range rows.length)
  let n_test := (⌈test_size * rows.length⌉).toNat
  ((perm.drop n_test).filterMap (fun i => rows[i]?),
   (perm.take n_test).filterMap (fun i => rows[i]?))

/-- The notebook's call: `test_size=0.2`, `random_state=42`. -/
def spam_split {α : Type} (shuffle : ℕ → List ℕ → List ℕ)
    (rows : List α) (entropy : ℕ) : List α × List α :=
  train_test_split shuffle rows (2 / 10) (some 42) entropy

end Spam

/-- With `random_state=None` the split would depend on the environment's
entropy: the embedding is not vacuously entropy-free, only the fixed seed
makes the notebook deterministic. -/
theorem train_test_split_uses_entropy_without_seed :
    Spam.train_test_split (fun s l => if s = 0 then l else l.reverse)
        ([10, 20] : List ℕ) 0 none 0
      ≠ Spam.train_test_split (fun s l => if s = 0 then l else l.reverse)
        ([10, 20] : List ℕ) 0 none 1 := by
  intro h
  have := congrArg Prod.fst h
  simp [Spam.train_test_split] at this
  revert this
  decide

/-! ## Claims about the Best Subset Regression cell -/

/-- C1: among all feature subsets enumerated by the loop, the subset used to
fit the final `best_subset_model` (`results['features'][0]` after
`sort_values('MAE')`) has test-set mean absolute error no greater than that of
every other enumerated subset, and the printed `Best Subset Regression MAE`
value (`results['MAE'][0]`) equals that minimal test-set MAE.  `mae` abstracts
the library's held-out test MAE of each fitted subset, so this holds in
particular on the prostate data, where `p = 8`. -/
theorem best_subset_selects_min_test_mae (mae : List ℕ → ℚ) (p : ℕ) (hp : 0 < p) :
    bestFeatures mae p ∈ enumSubsets p ∧
    bestMAE mae p = mae (bestFeatures mae p) ∧
    ∀ s ∈ enumSubsets p, bestMAE mae p ≤ mae s := by
  have hperm : (sortedResults mae p).Perm (results mae p) :=
    List.perm_insertionSort (fun a b : ℕ × List ℕ × ℚ => a.2.2 ≤ b.2.2) (results mae p)
  have hsorted : List.Sorted (fun (a b : ℕ × List ℕ × ℚ) => a.2.2 ≤ b.2.2)
      (sortedResults mae p) :=
    List.sorted_insertionSort (fun a b : ℕ × List ℕ × ℚ => a.2.2 ≤ b.2.2) (results mae p)
  obtain ⟨hd, tl, hcons⟩ : ∃ hd tl, sortedResults mae p = hd :: tl := by
    cases hsr : sortedResults mae p with
    | nil =>
      exfalso
      have hlen : (sortedResults mae p).length = (results mae p).length := hperm.length_eq
      rw [hsr, length_results, length_enumSubsets] at hlen
      have h2 : 2 ≤ 2 ^ p := by
        calc 2 = 2 ^ 1 := (pow_one 2).symm
        _ ≤ 2 ^ p := Nat.pow_le_pow_right (by omega) hp
      revert hlen h2
      generalize (2 : ℕ) ^ p = q
      intro hlen h2
      simp at hlen
      omega
    | cons a l => exact ⟨a, l, rfl⟩
  have hhd_mem : hd ∈ results mae p :=
    hperm.mem_iff.mp (hcons ▸ List.mem_cons_self hd tl)
  obtain ⟨s, hs, hdef⟩ := mem_results.mp hhd_mem
  have hbf : bestFeatures mae p = s := by
    rw [bestFeatures, hcons, hdef]
    rfl
  have hbm : bestMAE mae p = mae s := by
    rw [bestMAE, hcons, hdef]
    rfl
  refine ⟨hbf ▸ hs, by rw [hbm, hbf], ?_⟩
  intro t ht
  have hts : (t.length, t, mae t) ∈ sortedResults mae p :=
    hperm.mem_iff.mpr (mem_results.mpr ⟨t, ht, rfl⟩)
  rw [hcons] at hts
  rcases List.mem_cons.mp hts with h | h
  · have : mae t = mae s := by
      have := congrArg (fun r => r.2.2) (h.trans hdef)
      simpa using this
    rw [hbm, ← this]
  · rw [hcons] at hsorted
    have hrel := List.rel_of_sorted_cons hsorted _ h
    have hhd : hd.2.2 = mae s := by rw [hdef]
    rw [hbm, ← hhd]
    exact hrel

/-- Witness for C1 at `p = 2` with the concrete test-error function
`mae s = s.length`: the selected subset is enumerated and its MAE is at most
the MAE of the singleton `[0]`. -/
theorem best_subset_selects_min_test_mae_witness :
    bestFeatures (fun s => (s.length : ℚ)) 2 ∈ enumSubsets 2 ∧
    bestMAE (fun s => (s.length : ℚ)) 2 ≤ 1 := by
  obtain ⟨h1, _, h3⟩ := best_subset_selects_min_test_mae (fun s => (s.length : ℚ)) 2 (by omega)
  refine ⟨h1, ?_⟩
  have := h3 [0] (by decide)
  simpa using this

set_option maxRecDepth 10000 in
/-- Counterexample to C2 as stated: the loop `for k in range(1, p + 1)` starts
at subsets of size 1, so the empty subset — which is a subset of
`{0, ..., 7}` — is never enumerated on the prostate data (`p = 8`): no
enumerated subset list represents it, and only `2 ^ 8 - 1 = 255` subsets are
enumerated rather than `2 ^ 8 = 256`. -/
theorem enum_misses_empty_subset :
    (enumSubsets 8).count ([] : List ℕ) = 0 ∧ (enumSubsets 8).length = 255 := by
  decide

/-- C2 (amended): the nested loop enumerates exactly the *nonempty* subsets of
`{0, ..., p - 1}`, each exactly once: the enumeration has no duplicates, its
members are precisely the nonempty canonical (strictly increasing) index
lists over `{0, ..., p - 1}`, distinct members denote distinct subsets, and
every nonempty subset of `{0, ..., p - 1}` is denoted by some member. -/
theorem enum_eq_nonempty_subsets_exactly_once (p : ℕ) :
    (enumSubsets p).Nodup ∧
    (∀ s : List ℕ, s ∈ enumSubsets p ↔ s ≠ [] ∧ s.Sublist (List.range p)) ∧
    (∀ s ∈ enumSubsets p, ∀ t ∈ enumSubsets p, s.toFinset = t.toFinset → s = t) ∧
    (∀ S : Finset ℕ, S.Nonempty → S ⊆ Finset.range p →
      ∃ s ∈ enumSubsets p, s.toFinset = S) :=
  ⟨nodup_enumSubsets p, fun _ => mem_enumSubsets,
   fun _ hs _ ht h => enumSubsets_toFinset_injOn hs ht h,
   fun _ hne hsub => exists_mem_enumSubsets_toFinset_eq hne hsub⟩

/-- C7: the Best Subset Regression loop has no error branch.  If the library
fit/predict computation raises an error on any enumerated subset, the whole
computation evaluates to an error raised by one of the enumerated subsets:
there is no results table, no best model and no printed metric, and no error
is caught or recovered from. -/
theorem best_subset_no_failure_handling {ε : Type} (mae : List ℕ → Except ε ℚ)
    (p : ℕ) (s : List ℕ) (e : ε) (hs : s ∈ enumSubsets p) (he : mae s = .error e) :
    ∃ e', (∃ s' ∈ enumSubsets p, mae s' = .error e') ∧
      resultsE mae p = .error e' ∧ bestSubsetE mae p = .error e' := by
  obtain ⟨e', hmem, hrows⟩ := resultsRowsE_error mae (enumSubsets p) s e hs he
  have hres : resultsE mae p = .error e' := hrows
  refine ⟨e', hmem, hres, ?_⟩
  rw [bestSubsetE, hres]

/-- Witness for C7 at `p = 2` with a fit that fails on the subset `[0]`:
the whole computation returns an error. -/
theorem best_subset_no_failure_handling_witness :
    ∃ e', (∃ s' ∈ enumSubsets 2,
        (fun s => if s = [0] then Except.error "singular matrix" else Except.ok (0 : ℚ)) s'
          = .error e') ∧
      resultsE (fun s => if s = [0] then Except.error "singular matrix" else Except.ok (0 : ℚ)) 2
        = .error e' ∧
      bestSubsetE (fun s => if s = [0] then Except.error "singular matrix" else Except.ok (0 : ℚ)) 2
        = .error e' :=
  best_subset_no_failure_handling _ 2 [0] "singular matrix" (by decide) rfl

/-- Counterexample to C3 as stated: the PLS cell does not report the mean
absolute difference.  `PLSRegression.predict` returns an `(n, 1)` column, so
`y_test - pls_prediction` broadcasts to an `n × n` matrix and `pls_mae`
averages all `n * n` pairwise differences.  On `y_test = [0, 2]` with the
perfect column prediction `[0, 2]` the mean absolute difference is `0`, but
the value the cell reports is the broadcast mean `1`. -/
theorem pls_reported_metric_not_mean_abs_diff :
    pls_mae [0, 2] [0, 2] = 1 ∧
    meanAbsDiff 2 (fun i => ([0, 2] : List ℚ).getD i 0)
      (fun i => ([0, 2] : List ℚ).getD i 0) = 0 ∧
    pls_mae [0, 2] [0, 2]
      ≠ meanAbsDiff 2 (fun i => ([0, 2] : List ℚ).getD i 0)
          (fun i => ([0, 2] : List ℚ).getD i 0) := by
  have h1 : pls_mae [0, 2] [0, 2] = 1 := by
    rw [pls_mae, npMeanMat, npAbsMat, npSubBroadcast]
    norm_num [npAbs]
  have h2 : meanAbsDiff 2 (fun i => ([0, 2] : List ℚ).getD i 0)
      (fun i => ([0, 2] : List ℚ).getD i 0) = 0 := by
    rw [meanAbsDiff, Finset.sum_range_succ, Finset.sum_range_succ, Finset.sum_range_zero]
    norm_num
  refine ⟨h1, h2, ?_⟩
  rw [h1, h2]
  norm_num

/-- C3 (amended): for the seven regression models of the first notebook whose
`predict` returns a 1-D array of length `n` (ordinary least squares, best
subset, ridge, LASSO, elastic net, least angle regression, PCR), the reported
metric `np.mean(np.abs(y_test - prediction))` equals the mean of the absolute
differences between `y_test` and the predictions; for every classifier of the
second notebook the reported `accuracy_score` equals the fraction of test
observations whose predicted class equals the true label; but for partial
least squares, whose `predict` returns an `(n, 1)` column, the subtraction
broadcasts and the reported value is the mean of all `n * n` pairwise
absolute differences `|y_j - ŷ_i| / n²`, not the mean absolute difference. -/
theorem reported_metrics_mae_accuracy_and_pls_broadcast (y pred : List ℚ)
    (h : y.length = pred.length) (yc pc : List ℕ) (hc : yc.length = pc.length) :
    reported_mae y pred
      = meanAbsDiff y.length (fun i => y.getD i 0) (fun i => pred.getD i 0) ∧
    accuracy_score yc pc
      = fractionCorrect yc.length (fun i => yc.getD i 0) (fun i => pc.getD i 0) ∧
    pls_mae y pred
      = (∑ i ∈ Finset.range y.length, ∑ j ∈ Finset.range y.length,
          |y.getD j 0 - pred.getD i 0|) / (((y.length : ℕ) : ℚ) * ((y.length : ℕ) : ℚ)) := by
  refine ⟨?_, ?_, ?_⟩
  · rw [reported_mae, npMean, npAbs_npSub_sum y pred h, length_npAbs_npSub y pred h,
      meanAbsDiff]
  · have hcard :
        ((((Finset.range yc.length).filter
          (fun i => yc.getD i 0 = pc.getD i 0)).card : ℕ) : ℚ)
        = ∑ i ∈ Finset.range yc.length,
            (if yc.getD i 0 = pc.getD i 0 then (1 : ℚ) else 0) := by
      rw [Finset.card_filter]
      push_cast
      rfl
    rw [accuracy_score, npMean, match_indicator_sum yc pc hc, fractionCorrect, hcard]
    congr 2
    simp [List.length_zip, hc]
  · rw [pls_mae, npMeanMat, npAbsMat_npSubBroadcast_sum, npAbsMat_npSubBroadcast_count,
      ← h]
    congr 1
    push_cast
    ring

/-- Witness for C3 on concrete vectors: `y = [1, 3]`, `pred = [2, 5]` (1-D
MAE `3/2`, PLS broadcast mean `9/4`) and labels `[1, 0]` against predictions
`[1, 1]` (accuracy `1/2`). -/
theorem reported_metrics_mae_accuracy_and_pls_broadcast_witness :
    reported_mae [1, 3] [2, 5]
      = meanAbsDiff 2 (fun i => [(1 : ℚ), 3].getD i 0) (fun i => [(2 : ℚ), 5].getD i 0) ∧
    accuracy_score [1, 0] [1, 1]
      = fractionCorrect 2 (fun i => [1, 0].getD i 0) (fun i => [1, 1].getD i 0) ∧
    pls_mae [1, 3] [2, 5]
      = (∑ i ∈ Finset.range 2, ∑ j ∈ Finset.range 2,
          |[(1 : ℚ), 3].getD j 0 - [(2 : ℚ), 5].getD i 0|)
        / (((2 : ℕ) : ℚ) * ((2 : ℕ) : ℚ)) :=
  reported_metrics_mae_accuracy_and_pls_broadcast [1, 3] [2, 5] rfl [1, 0] [1, 1] rfl

/-- C6: the hyperparameter grids are supplied by the notebook to library CV
estimators: the ridge/LASSO/elastic-net `alphas` grid `np.logspace(-10, 1,
400)` has 400 values logarithmically spaced from `10 ^ (-10)` to `10 ^ 1`
(its exponents run evenly from `-10` to `1` in steps of `11/399`); the
elastic-net `l1_ratio` grid has 100 values evenly spaced from `0` to `1`; and
the PCR/PLS component grids search `range(1, 9) = {1, ..., 8}`.  Searching
over these grids is performed by `RidgeCV`, `LassoCV`, `ElasticNetCV` and
`GridSearchCV`; the only search loop written in the notebook itself is the
best-subset enumeration `results`. -/
theorem cv_grids_as_specified :
    alphas_exponents.length = 400 ∧
    alphas_exponents.getD 0 0 = -10 ∧
    alphas_exponents.getD 399 0 = 1 ∧
    (∀ i, i + 1 < 400 →
      alphas_exponents.getD (i + 1) 0 - alphas_exponents.getD i 0 = 11 / 399) ∧
    l1_ratio_grid.length = 100 ∧
    l1_ratio_grid.getD 0 0 = 0 ∧
    l1_ratio_grid.getD 99 0 = 1 ∧
    (∀ i, i + 1 < 100 →
      l1_ratio_grid.getD (i + 1) 0 - l1_ratio_grid.getD i 0 = 1 / 99) ∧
    n_components_grid = [1, 2, 3, 4, 5, 6, 7, 8] := by
  refine ⟨length_linspace _ _ _, ?_, ?_, ?_, length_linspace _ _ _, ?_, ?_, ?_, by decide⟩
  · rw [alphas_exponents, linspace_getD _ _ _ _ (by omega)]
    norm_num
  · rw [alphas_exponents, linspace_getD _ _ _ _ (by omega)]
    norm_num
  · intro i hi
    rw [alphas_exponents, linspace_getD _ _ _ _ (by omega),
      linspace_getD _ _ _ _ (by omega)]
    push_cast
    field_simp
    ring
  · rw [l1_ratio_grid, linspace_getD _ _ _ _ (by omega)]
    norm_num
  · rw [l1_ratio_grid, linspace_getD _ _ _ _ (by omega)]
    norm_num
  · intro i hi
    rw [l1_ratio_grid, linspace_getD _ _ _ _ (by omega),
      linspace_getD _ _ _ _ (by omega)]
    push_cast
    field_simp
    ring

/-- C8: the best-subset computation is a single terminating sequential loop
nest: it performs exactly one model fit per enumerated subset — one row of
`results` per subset — and the number of fits is `2 ^ p - 1`, in particular at
most `2 ^ p`, for `p` training-feature columns.  (Termination is inherent:
`results` is a total structurally recursive function.) -/
theorem best_subset_fit_count_le_two_pow (mae : List ℕ → ℚ) (p : ℕ) :
    (results mae p).length = (enumSubsets p).length ∧
    (results mae p).length = 2 ^ p - 1 ∧
    (results mae p).length ≤ 2 ^ p := by
  refine ⟨length_results mae p, ?_, ?_⟩
  · rw [length_results, length_enumSubsets]
  · rw [length_results, length_enumSubsets]
    exact Nat.sub_le _ _

/-! ## Claims about the prostate train/test split -/

/-- C4: the prostate split is determined entirely by the `train` column: for a
rectangular frame, `y_train`/`X_train` are exactly the rows flagged `"T"` (in
original row order) and `y_test`/`X_test` exactly the rows flagged `"F"`; each
`X` row consists of the row's entries at exactly the columns other than the
target `lpsa` and the indicator `train`; and the feature matrices' columns
exclude exactly `lpsa` and `train`, so the target is never among the
predictors. -/
theorem split_is_by_train_flag (d : DataFrame)
    (hrect : ∀ r ∈ d.rows, r.length = d.cols.length) :
    Prostate.y_train d
      = (d.rows.filter (fun r => trainFlag d r == Cell.str "T")).map
          (fun r => d.cellAt r "lpsa") ∧
    Prostate.y_test d
      = (d.rows.filter (fun r => trainFlag d r == Cell.str "F")).map
          (fun r => d.cellAt r "lpsa") ∧
    (Prostate.X_train d).rows
      = (d.rows.filter (fun r => trainFlag d r == Cell.str "T")).map
          (predictorEntries d) ∧
    (Prostate.X_test d).rows
      = (d.rows.filter (fun r => trainFlag d r == Cell.str "F")).map
          (predictorEntries d) ∧
    "lpsa" ∉ (Prostate.X_train d).cols ∧ "train" ∉ (Prostate.X_train d).cols ∧
    "lpsa" ∉ (Prostate.X_test d).cols ∧ "train" ∉ (Prostate.X_test d).cols ∧
    (∀ c ∈ d.cols, c ≠ "lpsa" → c ≠ "train" → c ∈ (Prostate.X_train d).cols) ∧
    (Prostate.X_train d).cols.Sublist d.cols := by
  refine ⟨rfl, rfl, ?_, ?_, ?_, ?_, ?_, ?_, ?_, List.filter_sublist d.cols⟩
  · show (d.rows.filter (fun r => trainFlag d r == Cell.str "T")).map _ = _
    apply List.map_congr_left
    intro r hr
    exact predictorEntries_eq d r (hrect r (List.mem_of_mem_filter hr))
  · show (d.rows.filter (fun r => trainFlag d r == Cell.str "F")).map _ = _
    apply List.map_congr_left
    intro r hr
    exact predictorEntries_eq d r (hrect r (List.mem_of_mem_filter hr))
  · intro h
    simp [Prostate.X_train, DataFrame.dropCols, DataFrame.filterBy, List.mem_filter] at h
  · intro h
    simp [Prostate.X_train, DataFrame.dropCols, DataFrame.filterBy, List.mem_filter] at h
  · intro h
    simp [Prostate.X_test, DataFrame.dropCols, DataFrame.filterBy, List.mem_filter] at h
  · intro h
    simp [Prostate.X_test, DataFrame.dropCols, DataFrame.filterBy, List.mem_filter] at h
  · intro c hc h1 h2
    refine List.mem_filter.mpr ⟨hc, ?_⟩
    simp [h1, h2]

/-- Witness for C4 on a concrete three-column frame with one `"T"` row and one
`"F"` row: `y_train` is the `lpsa` value of the `"T"` row. -/
theorem split_is_by_train_flag_witness :
    Prostate.y_train (DataFrame.mk ["lcavol", "lpsa", "train"]
        [[Cell.num 1, Cell.num 2, Cell.str "T"], [Cell.num 3, Cell.num 4, Cell.str "F"]])
      = [Cell.num 2] := by
  have h := split_is_by_train_flag (DataFrame.mk ["lcavol", "lpsa", "train"]
    [[Cell.num 1, Cell.num 2, Cell.str "T"], [Cell.num 3, Cell.num 4, Cell.str "F"]])
    (by decide)
  rw [h.1]
  decide

/-- C9: a prostate row whose `train` field is neither `"T"` nor `"F"` is
silently placed in neither the training nor the test set, no error is raised
(all the split functions are total), and the computation over the remaining
rows proceeds unchanged: the train and test parts are a partition of exactly
the rows flagged `"T"` or `"F"`, and restricting the frame to those rows
changes neither `y_train`/`y_test` nor the feature matrices. -/
theorem rows_with_other_flags_ignored (d : DataFrame) (r : List Cell)
    (hT : trainFlag d r ≠ Cell.str "T") (hF : trainFlag d r ≠ Cell.str "F") :
    r ∉ (d.filterBy "train" (Cell.str "T")).rows ∧
    r ∉ (d.filterBy "train" (Cell.str "F")).rows ∧
    (Prostate.y_train d).length + (Prostate.y_test d).length
      = (d.rows.filter (fun r' => trainFlag d r' == Cell.str "T"
          || trainFlag d r' == Cell.str "F")).length ∧
    Prostate.y_train d = Prostate.y_train ⟨d.cols, d.rows.filter
      (fun r' => trainFlag d r' == Cell.str "T" || trainFlag d r' == Cell.str "F")⟩ ∧
    Prostate.y_test d = Prostate.y_test ⟨d.cols, d.rows.filter
      (fun r' => trainFlag d r' == Cell.str "T" || trainFlag d r' == Cell.str "F")⟩ ∧
    (Prostate.X_train d).rows = (Prostate.X_train ⟨d.cols, d.rows.filter
      (fun r' => trainFlag d r' == Cell.str "T"
        || trainFlag d r' == Cell.str "F")⟩).rows ∧
    (Prostate.X_test d).rows = (Prostate.X_test ⟨d.cols, d.rows.filter
      (fun r' => trainFlag d r' == Cell.str "T"
        || trainFlag d r' == Cell.str "F")⟩).rows := by
  have hexcl : ∀ r' ∈ d.rows,
      ¬((trainFlag d r' == Cell.str "T") = true ∧ (trainFlag d r' == Cell.str "F") = true) := by
    rintro r' - ⟨h1, h2⟩
    rw [beq_iff_eq] at h1 h2
    rw [h1] at h2
    exact absurd h2 (by decide)
  have hTT : ∀ r' : List Cell, ((trainFlag d r' == Cell.str "T") &&
      ((trainFlag d r' == Cell.str "T") || (trainFlag d r' == Cell.str "F")))
        = (trainFlag d r' == Cell.str "T") := by
    intro r'
    cases h1 : (trainFlag d r' == Cell.str "T") <;>
      cases h2 : (trainFlag d r' == Cell.str "F") <;> simp
  have hFF : ∀ r' : List Cell, ((trainFlag d r' == Cell.str "F") &&
      ((trainFlag d r' == Cell.str "T") || (trainFlag d r' == Cell.str "F")))
        = (trainFlag d r' == Cell.str "F") := by
    intro r'
    cases h1 : (trainFlag d r' == Cell.str "T") <;>
      cases h2 : (trainFlag d r' == Cell.str "F") <;> simp
  refine ⟨?_, ?_, ?_, ?_, ?_, ?_, ?_⟩
  · intro hmem
    exact hT (beq_iff_eq.mp (List.mem_filter.mp hmem).2)
  · intro hmem
    exact hF (beq_iff_eq.mp (List.mem_filter.mp hmem).2)
  · show ((d.rows.filter (fun r' => trainFlag d r' == Cell.str "T")).map
        (fun r' => d.cellAt r' "lpsa")).length
      + ((d.rows.filter (fun r' => trainFlag d r' == Cell.str "F")).map
        (fun r' => d.cellAt r' "lpsa")).length = _
    rw [List.length_map, List.length_map]
    exact length_filter_or _ _ d.rows hexcl
  · show (d.rows.filter (fun r' => trainFlag d r' == Cell.str "T")).map
        (fun r' => d.cellAt r' "lpsa")
      = ((d.rows.filter (fun r' => trainFlag d r' == Cell.str "T"
            || trainFlag d r' == Cell.str "F")).filter
          (fun r' => trainFlag d r' == Cell.str "T")).map
        (fun r' => d.cellAt r' "lpsa")
    rw [List.filter_filter, List.filter_congr (fun r' _ => hTT r')]
  · show (d.rows.filter (fun r' => trainFlag d r' == Cell.str "F")).map
        (fun r' => d.cellAt r' "lpsa")
      = ((d.rows.filter (fun r' => trainFlag d r' == Cell.str "T"
            || trainFlag d r' == Cell.str "F")).filter
          (fun r' => trainFlag d r' == Cell.str "F")).map
        (fun r' => d.cellAt r' "lpsa")
    rw [List.filter_filter, List.filter_congr (fun r' _ => hFF r')]
  · show (d.rows.filter (fun r' => trainFlag d r' == Cell.str "T")).map
        (fun r' => ((d.cols.zip r').filter
          (fun pr => !(["lpsa", "train"] : List String).contains pr.1)).map Prod.snd)
      = ((d.rows.filter (fun r' => trainFlag d r' == Cell.str "T"
            || trainFlag d r' == Cell.str "F")).filter
          (fun r' => trainFlag d r' == Cell.str "T")).map
        (fun r' => ((d.cols.zip r').filter
          (fun pr => !(["lpsa", "train"] : List String).contains pr.1)).map Prod.snd)
    rw [List.filter_filter, List.filter_congr (fun r' _ => hTT r')]
  · show (d.rows.filter (fun r' => trainFlag d r' == Cell.str "F")).map
        (fun r' => ((d.cols.zip r').filter
          (fun pr => !(["lpsa", "train"] : List String).contains pr.1)).map Prod.snd)
      = ((d.rows.filter (fun r' => trainFlag d r' == Cell.str "T"
            || trainFlag d r' == Cell.str "F")).filter
          (fun r' => trainFlag d r' == Cell.str "F")).map
        (fun r' => ((d.cols.zip r').filter
          (fun pr => !(["lpsa", "train"] : List String).contains pr.1)).map Prod.snd)
    rw [List.filter_filter, List.filter_congr (fun r' _ => hFF r')]

/-- Witness for C9 on a concrete frame with a row flagged `"X"`: that row is
in neither the train rows nor the test rows. -/
theorem rows_with_other_flags_ignored_witness :
    [Cell.num 2, Cell.str "X"] ∉ ((DataFrame.mk ["lpsa", "train"]
        [[Cell.num 1, Cell.str "T"], [Cell.num 2, Cell.str "X"],
         [Cell.num 3, Cell.str "F"]]).filterBy "train" (Cell.str "T")).rows :=
  (rows_with_other_flags_ignored (DataFrame.mk ["lpsa", "train"]
    [[Cell.num 1, Cell.str "T"], [Cell.num 2, Cell.str "X"], [Cell.num 3, Cell.str "F"]])
    [Cell.num 2, Cell.str "X"] (by decide) (by decide)).1

/-! ## Claim about the coefficient dictionary -/

/-- C5: with the prostate column layout (feature names `fs`, then `lpsa`,
then `train`), the coefficient dictionary pairs the intercept and the fitted
coefficients positionally with `'Intercept'` followed by the column names in
original order, only `train` being dropped — so `lpsa` stays in the label
list — and for every fitted subset `S` that is not a prefix `{0, ..., k-1}`
of the feature columns, some printed coefficient is labelled with a feature
name that is not the name of any feature in `S`. -/
theorem coef_labels_misname_nonprefix_subsets (fs : List String) (hnd : fs.Nodup)
    (S : List ℕ) (hS : S.Sublist (List.range fs.length))
    (hpre : S ≠ List.range S.length)
    (intercept : ℚ) (coefs : List ℚ) (hlen : coefs.length = S.length) :
    coefLabels (fs ++ ["lpsa", "train"]) = "Intercept" :: (fs ++ ["lpsa"]) ∧
    "lpsa" ∈ coefLabels (fs ++ ["lpsa", "train"]) ∧
    (best_subset_coefs (fs ++ ["lpsa", "train"]) intercept coefs).map Prod.fst
      = "Intercept" :: (fs ++ ["lpsa"]).take coefs.length ∧
    ∃ lbl ∈ (best_subset_coefs (fs ++ ["lpsa", "train"]) intercept coefs).map Prod.fst,
      lbl ∈ fs ∧ ∀ i ∈ S, fs.getD i "" ≠ lbl := by
  have hlabels : coefLabels (fs ++ ["lpsa", "train"]) = "Intercept" :: (fs ++ ["lpsa"]) := by
    rw [coefLabels]
    congr 1
    rw [show fs ++ ["lpsa", "train"] = (fs ++ ["lpsa"]) ++ ["train"] by simp]
    exact List.dropLast_concat
  have hmap : (best_subset_coefs (fs ++ ["lpsa", "train"]) intercept coefs).map Prod.fst
      = "Intercept" :: (fs ++ ["lpsa"]).take coefs.length := by
    rw [best_subset_coefs, hlabels, map_fst_zip_eq_take, List.length_cons,
      List.take_succ_cons]
  refine ⟨hlabels, ?_, hmap, ?_⟩
  · rw [hlabels]
    exact List.mem_cons_of_mem _ (List.mem_append_right fs (List.mem_cons_self _ _))
  · obtain ⟨j, hj, hjS⟩ := exists_lt_not_mem_of_ne_range hS hpre
    have hSfs : S.length ≤ fs.length := by
      have := hS.length_le
      simpa using this
    have hjfs : j < fs.length := by omega
    refine ⟨fs.getD j "", ?_, ?_, ?_⟩
    · rw [hmap]
      refine List.mem_cons_of_mem _ ?_
      refine List.mem_iff_getElem?.mpr ⟨j, ?_⟩
      rw [List.getElem?_take, if_pos (by omega), List.getElem?_append, if_pos hjfs,
        List.getD_eq_getElem fs "" hjfs]
      exact List.getElem?_eq_getElem hjfs
    · rw [List.getD_eq_getElem fs "" hjfs]
      exact List.getElem_mem hjfs
    · intro i hiS
      have hifs : i < fs.length := List.mem_range.mp (hS.subset hiS)
      rw [List.getD_eq_getElem fs "" hifs, List.getD_eq_getElem fs "" hjfs]
      intro heq
      rw [List.Nodup.getElem_inj_iff hnd] at heq
      exact hjS (heq ▸ hiS)

/-- Witness for C5 with feature names `["a", "b"]` and the non-prefix winning
subset `[1]`: the coefficient of feature `b` gets printed under the label `a`,
a feature name not in the subset. -/
theorem coef_labels_misname_nonprefix_subsets_witness :
    ∃ lbl ∈ (best_subset_coefs (["a", "b"] ++ ["lpsa", "train"]) 2 [5]).map Prod.fst,
      lbl ∈ (["a", "b"] : List String) ∧
      ∀ i ∈ ([1] : List ℕ), (["a", "b"] : List String).getD i "" ≠ lbl :=
  (coef_labels_misname_nonprefix_subsets ["a", "b"] (by decide) [1] (by decide)
    (by decide) 2 [5] rfl).2.2.2

/-! ## Claim about the spam experiment -/

/-- C10: the spam experiment is deterministic.  The split is made with the
fixed test fraction `0.2` and fixed `random_state=42`, so for any two runs on
the same `spam.txt` contents — any two environment entropies — the resulting
train and test partitions are identical, and hence every reported accuracy
(a function of the split, as each of the LDA, QDA, RDA and logistic-regression
accuracies is) takes the same value: the outputs are a deterministic function
of the input file. -/
theorem spam_experiment_deterministic {α : Type} (shuffle : ℕ → List ℕ → List ℕ)
    (rows : List α) (e₁ e₂ : ℕ) (accuracy_of : List α × List α → ℚ) :
    Spam.spam_split shuffle rows e₁ = Spam.spam_split shuffle rows e₂ ∧
    accuracy_of (Spam.spam_split shuffle rows e₁)
      = accuracy_of (Spam.spam_split shuffle rows e₂) :=
  ⟨rfl, rfl⟩

end KnowledgeBank
